import Mathlib

/-!
A shallow embedding of the Daala range decoder (`src/entdec.c`) and proofs of
the specification's claims about it.

Machine integers are modelled as `Nat` (unsigned) or `Int` (signed C `int`),
with explicit `% 2^32` reductions wherever 32-bit unsigned overflow can occur
in the C code.  The decoder state `od_ec_dec` mirrors the C struct.
-/

/-- Modelled from the spec: the width `W` of the sliding bit accumulator
(`od_ec_window`); the header defining it is not part of the sources, the spec
fixes it as "a platform word chosen ≥ 32 bits"; the 32-bit choice matches the
`ogg_uint32_t` casts in `od_ec_dec_bits`. -/
def OD_EC_WINDOW_SIZE : Nat := 32

/-- Constant from `entdec.c`: a large positive constant used as an "infinite availability"
sentinel once the buffer is exhausted. -/
def OD_EC_LOTS_OF_BITS : Nat := 0x4000

/-- Modelled from the spec: the number of bits decoded via the range coder in
`od_ec_dec_uint` (the header defining it is missing); the spec gives the
small/large threshold as `2^8`. -/
def OD_EC_UINT_BITS : Nat := 8

/-- The recursion computing the bitlength of `n`; the fuel argument (always
sufficient, since the value halves each step) keeps the recursion structural
so that proofs can evaluate it. -/
def od_ilog_aux : Nat → Nat → Nat
  | 0, _ => 0
  | fuel + 1, n => if n = 0 then 0 else od_ilog_aux fuel (n / 2) + 1

/-- Modelled from the spec: `OD_ILOG_NZ` (missing header macro) is the
bitlength of its argument, i.e. the position of the highest set bit plus one
(`Nat.size`; see `OD_ILOG_NZ_eq_size`). -/
def OD_ILOG_NZ (n : Nat) : Nat := od_ilog_aux n n

/-- The `OD_MAXI` macro, `(a) > (b) ? (a) : (b)`: maximum of two C `int`s. -/
def OD_MAXI (a b : Int) : Int := if b < a then a else b

/-- The `OD_MINI` macro, `(a) < (b) ? (a) : (b)`, at unsigned type: minimum
of two unsigned values. -/
def OD_MINI (a b : Nat) : Nat := if a < b then a else b

/-- Reinterpret a 32-bit unsigned value as a C `int` (two's complement). -/
def toInt32 (n : Nat) : Int :=
  if n % 2^32 < 2^31 then (n % 2^32 : Int) else (n % 2^32 : Int) - 2^32

/-- 32-bit unsigned subtraction `a - b` (wrapping). -/
def sub32 (a b : Nat) : Nat := (a % 2^32 + (2^32 - b % 2^32)) % 2^32

/-- Reinterpret a C `int` as a 32-bit unsigned value (the `(unsigned)available`
cast in `od_ec_dec_bits`). -/
def uint32ofInt (i : Int) : Nat := (i % (2^32 : Int)).toNat

/-- Modelled from the spec: the decoder state record (declared in the missing
header `entdec.h`); fields and their meanings follow the spec's data model and
the uses in `entdec.c`.  `error` was called `fault` by the spec. -/
structure od_ec_dec where
  buf : List Nat
  storage : Nat
  end_offs : Nat
  end_window : Nat
  nend_bits : Int
  nbits_total : Int
  offs : Nat
  rng : Nat
  cnt : Int
  val : Nat
  ext : Nat
  error : Nat
  deriving Repr, DecidableEq

/-- The byte at index `i` of the buffer (the C code never reads out of bounds
on the paths the claims are about; out-of-range reads return 0 here). -/
def byteAt (buf : List Nat) (i : Nat) : Nat := buf.getD i 0

/-- The refill loop shared by `od_ec_dec_init` and `od_ec_dec_normalize`:
`for(s=...;s>=0;){ if(offs>=storage){c=OD_EC_LOTS_OF_BITS;break;}
dif|=buf[offs++]<<s; c+=8; s-=8; }`.  The fuel argument is always sufficient
(`s` drops by 8 each iteration), so the fuel-0 branch is dead code. -/
def ec_refill_aux (buf : List Nat) (storage : Nat) :
    Nat → Nat → Nat → Int → Nat → Nat × Int × Nat
  | 0, _, offs, c, dif => (offs, c, dif)
  | fuel + 1, s, offs, c, dif =>
    if storage ≤ offs then (offs, OD_EC_LOTS_OF_BITS, dif)
    else
      let dif' := (dif ||| byteAt buf offs <<< s) % 2^32
      if s < 8 then (offs + 1, c + 8, dif')
      else ec_refill_aux buf storage fuel (s - 8) (offs + 1) (c + 8) dif'

/-- Entry point of the refill loop, with exactly enough fuel. -/
def ec_refill (buf : List Nat) (storage : Nat) (s offs : Nat) (c : Int)
    (dif : Nat) : Nat × Int × Nat :=
  ec_refill_aux buf storage (s / 8 + 1) s offs c dif

/-- Function `od_ec_dec_init`: initializes the decoder over `buf` of length `storage`;
the initial window fill is the same loop as the normalization refill with
`s = OD_EC_WINDOW_SIZE - 9`, `c = -15`, `dif = 0`, `offs = 0`.
The C struct's `ext` field is left uninitialized by `od_ec_dec_init`; it is set
to 0 here (no claim depends on its initial value). -/
def od_ec_dec_init (buf : List Nat) (storage : Nat) : od_ec_dec :=
  let ocd := ec_refill buf storage (OD_EC_WINDOW_SIZE - 9) 0 (-15) 0
  { buf := buf
    storage := storage
    end_offs := 0
    end_window := 0
    nend_bits := 0
    nbits_total := 1
    offs := ocd.1
    rng := 0x8000
    cnt := ocd.2.1
    val := ocd.2.2
    ext := 0
    error := 0 }

/-- Function `od_ec_dec_normalize`: takes updated `dif` and `rng` values, renormalizes
them so that `32768 <= rng < 65536` (reading more bytes into `dif` if needed),
stores them back, and returns `_ret`. -/
def od_ec_dec_normalize (t : od_ec_dec) (_dif _rng : Nat) (_ret : Int) :
    od_ec_dec × Int :=
  let d : Nat := 16 - OD_ILOG_NZ _rng
  let c : Int := t.cnt - d
  let dif := (_dif <<< d) % 2^32
  let ocd : Nat × Int × Nat :=
    if c < 0 then
      ec_refill t.buf t.storage
        (Int.toNat ((OD_EC_WINDOW_SIZE : Int) - 9 - (c + 15))) t.offs c dif
    else (t.offs, c, dif)
  ({ t with
      offs := ocd.1
      nbits_total := t.nbits_total + (d : Int)
      val := ocd.2.2
      rng := (_rng <<< d) % 2^32
      cnt := ocd.2.1 }, _ret)

/-- Function `od_ec_decode_normalized`: scaled cumulative frequency of the next symbol
for a total `_ft` with `16384 <= _ft <= 32767`; sets `ext`, requires a
following `od_ec_dec_update`. -/
def od_ec_decode_normalized (t : od_ec_dec) (_ft : Nat) : od_ec_dec × Nat :=
  let dif := (t.val >>> (OD_EC_WINDOW_SIZE - 16)) % 2^32
  let r := t.rng
  let s : Nat := if (_ft <<< 1) % 2^32 ≤ r then 1 else 0
  let ft := (_ft <<< s) % 2^32
  let d := sub32 r ft
  let ret := (OD_MAXI (toInt32 (dif >>> 1)) (toInt32 (sub32 dif d))).toNat >>> s
  ({ t with ext := s }, ret)

/-- The scale step shared verbatim by `od_ec_decode`, `od_ec_dec_icdf_ft` and
`od_ec_dec_icdf16_ft`: `s=15-OD_ILOG_NZ(_ft-1); ft=_ft<<s;
if(r>=ft<<1){ft<<=1;s++;}`; returns the scaled total and the shift. -/
def od_ec_scale_ft (r _ft : Nat) : Nat × Nat :=
  let s0 : Nat := 15 - OD_ILOG_NZ (_ft - 1)
  let ft0 := (_ft <<< s0) % 2^32
  if (ft0 <<< 1) % 2^32 ≤ r then ((ft0 <<< 1) % 2^32, s0 + 1) else (ft0, s0)

/-- Function `od_ec_decode`: cumulative frequency of the next symbol for an arbitrary
total `_ft <= 32767`; sets `ext`, requires a following `od_ec_dec_update`. -/
def od_ec_decode (t : od_ec_dec) (_ft : Nat) : od_ec_dec × Nat :=
  let dif := (t.val >>> (OD_EC_WINDOW_SIZE - 16)) % 2^32
  let r := t.rng
  let fts := od_ec_scale_ft r _ft
  let ft := fts.1
  let s := fts.2
  let d := sub32 r ft
  let ret := (OD_MAXI (toInt32 (dif >>> 1)) (toInt32 (sub32 dif d))).toNat >>> s
  ({ t with ext := s }, ret)

/-- Function `od_ec_decode_bin_normalized`: equivalent to `od_ec_decode_normalized`
with `_ft == 32768`. -/
def od_ec_decode_bin_normalized (t : od_ec_dec) : od_ec_dec × Nat :=
  let dif := (t.val >>> (OD_EC_WINDOW_SIZE - 16)) % 2^32
  let r := t.rng
  let d := sub32 r 32768
  let ret := (OD_MAXI (toInt32 (dif >>> 1)) (toInt32 (sub32 dif d))).toNat
  ({ t with ext := 0 }, ret)

/-- Function `od_ec_decode_bin`: equivalent to `od_ec_decode` with `_ft == 1 << _ftb`
(except that `_ftb` may be as large as 15). -/
def od_ec_decode_bin (t : od_ec_dec) (_ftb : Nat) : od_ec_dec × Nat :=
  let dif := (t.val >>> (OD_EC_WINDOW_SIZE - 16)) % 2^32
  let r := t.rng
  let d := sub32 r 32768
  let s : Nat := 15 - _ftb
  let ret := (OD_MAXI (toInt32 (dif >>> 1)) (toInt32 (sub32 dif d))).toNat >>> s
  ({ t with ext := s }, ret)

/-- Function `od_ec_dec_update`: advances the decoder past the symbol `[_fl,_fh)` out
of total `_ft`, consuming the `ext` shift set by the preceding decode call,
and renormalizes. -/
def od_ec_dec_update (t : od_ec_dec) (_fl _fh _ft : Nat) : od_ec_dec :=
  let dif := t.val
  let r := t.rng
  let s := t.ext
  let fl := (_fl <<< s) % 2^32
  let fh := (_fh <<< s) % 2^32
  let ft := (_ft <<< s) % 2^32
  let d := sub32 r ft
  let u := (fl + OD_MINI fl d) % 2^32
  let v := (fh + OD_MINI fh d) % 2^32
  let r' := sub32 v u
  let dif' := sub32 dif ((u <<< (OD_EC_WINDOW_SIZE - 16)) % 2^32)
  (od_ec_dec_normalize t dif' r' 0).1

/-- Function `od_ec_dec_bit_logp`: decode a bit with probability `1/2^_logp` of being
one; self-normalizing, no `od_ec_dec_update` needed. -/
def od_ec_dec_bit_logp (t : od_ec_dec) (_logp : Nat) : od_ec_dec × Int :=
  let dif := t.val
  let r := t.rng
  let v0 := 32768 - (1 <<< (15 - _logp))
  let v := (v0 + OD_MINI v0 (sub32 r 32768)) % 2^32
  let vw := (v <<< (OD_EC_WINDOW_SIZE - 16)) % 2^32
  let ret : Int := if vw ≤ dif then 1 else 0
  let dif' := if vw ≤ dif then sub32 dif vw else dif
  let r' := if vw ≤ dif then sub32 r v else v
  od_ec_dec_normalize t dif' r' ret

/-- The inverse-CDF table scan `for(ret=0;_icdf[ret]>=q;ret++)fl=_icdf[ret];`
shared by all four ICDF decoders; returns the number of leading entries `>= q`
(the decoded symbol `ret`), the final `fl`, and `_icdf[ret]`.
On a table whose last entry is `0` and with `q >= 1` the scan always stops
inside the table; the `[]` case (an out-of-bounds read in C) returns 0. -/
def od_ec_icdf_walk (q fl : Nat) : List Nat → Nat × Nat × Nat
  | [] => (0, fl, 0)
  | x :: rest =>
    if q ≤ x then
      let w := od_ec_icdf_walk q x rest
      (w.1 + 1, w.2.1, w.2.2)
    else (0, fl, x)

/-- The `(s, d, q)` computation of `od_ec_dec_icdf_ft` / `od_ec_dec_icdf16_ft`:
the scale shift, the leftover `d = r - ft`, and the target frequency
`q = _ft - (OD_MAXI(dif>>W-15, (dif>>W-16)-d) >> s)`. -/
def od_ec_icdf_ft_sdq (t : od_ec_dec) (_ft : Nat) : Nat × Nat × Nat :=
  let dif := t.val
  let r := t.rng
  let fts := od_ec_scale_ft r _ft
  let ft := fts.1
  let s := fts.2
  let d := sub32 r ft
  let q0 := (OD_MAXI (toInt32 ((dif >>> (OD_EC_WINDOW_SIZE - 15)) % 2^32))
    (toInt32 (sub32 ((dif >>> (OD_EC_WINDOW_SIZE - 16)) % 2^32) d))).toNat >>> s
  (s, d, sub32 _ft q0)

/-- Function `od_ec_dec_icdf_ft`: decode a symbol from an 8-bit "inverse" CDF table
with explicit total `_ft`; self-normalizing. -/
def od_ec_dec_icdf_ft (t : od_ec_dec) (_icdf : List Nat) (_ft : Nat) :
    od_ec_dec × Int :=
  let sdq := od_ec_icdf_ft_sdq t _ft
  let s := sdq.1
  let d := sdq.2.1
  let q := sdq.2.2
  let w := od_ec_icdf_walk q _ft _icdf
  let ret := w.1
  let fl := (sub32 _ft w.2.1 <<< s) % 2^32
  let fh := (sub32 _ft w.2.2 <<< s) % 2^32
  let u := (fl + OD_MINI fl d) % 2^32
  let v := (fh + OD_MINI fh d) % 2^32
  let r' := sub32 v u
  let dif' := sub32 t.val ((u <<< (OD_EC_WINDOW_SIZE - 16)) % 2^32)
  od_ec_dec_normalize t dif' r' (ret : Int)

/-- Function `od_ec_dec_icdf16_ft`: identical to `od_ec_dec_icdf_ft` except that the C
table has 16-bit entries (the C source duplicates the body verbatim). -/
def od_ec_dec_icdf16_ft (t : od_ec_dec) (_icdf : List Nat) (_ft : Nat) :
    od_ec_dec × Int :=
  let sdq := od_ec_icdf_ft_sdq t _ft
  let s := sdq.1
  let d := sdq.2.1
  let q := sdq.2.2
  let w := od_ec_icdf_walk q _ft _icdf
  let ret := w.1
  let fl := (sub32 _ft w.2.1 <<< s) % 2^32
  let fh := (sub32 _ft w.2.2 <<< s) % 2^32
  let u := (fl + OD_MINI fl d) % 2^32
  let v := (fh + OD_MINI fh d) % 2^32
  let r' := sub32 v u
  let dif' := sub32 t.val ((u <<< (OD_EC_WINDOW_SIZE - 16)) % 2^32)
  od_ec_dec_normalize t dif' r' (ret : Int)

/-- The `(s, d, q)` computation of `od_ec_dec_icdf` / `od_ec_dec_icdf16`
(implicit total `1 << _ftb`): `s=15-_ftb; d=r-32768;
q=(1<<_ftb)-(OD_MAXI(dif>>W-15,(dif>>W-16)-d)>>s)`. -/
def od_ec_icdf_sdq (t : od_ec_dec) (_ftb : Nat) : Nat × Nat × Nat :=
  let dif := t.val
  let r := t.rng
  let s : Nat := 15 - _ftb
  let d := sub32 r 32768
  let q0 := (OD_MAXI (toInt32 ((dif >>> (OD_EC_WINDOW_SIZE - 15)) % 2^32))
    (toInt32 (sub32 ((dif >>> (OD_EC_WINDOW_SIZE - 16)) % 2^32) d))).toNat >>> s
  (s, d, sub32 ((1 <<< _ftb) % 2^32) q0)

/-- Function `od_ec_dec_icdf`: decode a symbol from an 8-bit "inverse" CDF table with
implicit total `1 << _ftb`, `_ftb <= 15`; self-normalizing. -/
def od_ec_dec_icdf (t : od_ec_dec) (_icdf : List Nat) (_ftb : Nat) :
    od_ec_dec × Int :=
  let sdq := od_ec_icdf_sdq t _ftb
  let s := sdq.1
  let d := sdq.2.1
  let q := sdq.2.2
  let w := od_ec_icdf_walk q ((1 <<< _ftb) % 2^32) _icdf
  let ret := w.1
  let fl := sub32 32768 ((w.2.1 <<< s) % 2^32)
  let fh := sub32 32768 ((w.2.2 <<< s) % 2^32)
  let u := (fl + OD_MINI fl d) % 2^32
  let v := (fh + OD_MINI fh d) % 2^32
  let r' := sub32 v u
  let dif' := sub32 t.val ((u <<< (OD_EC_WINDOW_SIZE - 16)) % 2^32)
  od_ec_dec_normalize t dif' r' (ret : Int)

/-- Function `od_ec_dec_icdf16`: identical to `od_ec_dec_icdf` except that the C table
has 16-bit entries (the C source duplicates the body verbatim). -/
def od_ec_dec_icdf16 (t : od_ec_dec) (_icdf : List Nat) (_ftb : Nat) :
    od_ec_dec × Int :=
  let sdq := od_ec_icdf_sdq t _ftb
  let s := sdq.1
  let d := sdq.2.1
  let q := sdq.2.2
  let w := od_ec_icdf_walk q ((1 <<< _ftb) % 2^32) _icdf
  let ret := w.1
  let fl := sub32 32768 ((w.2.1 <<< s) % 2^32)
  let fh := sub32 32768 ((w.2.2 <<< s) % 2^32)
  let u := (fl + OD_MINI fl d) % 2^32
  let v := (fh + OD_MINI fh d) % 2^32
  let r' := sub32 v u
  let dif' := sub32 t.val ((u <<< (OD_EC_WINDOW_SIZE - 16)) % 2^32)
  od_ec_dec_normalize t dif' r' (ret : Int)

/-- The raw-bit refill loop of `od_ec_dec_bits`:
`do{ if(end_offs>=storage){available=OD_EC_LOTS_OF_BITS;break;}
window|=buf[storage-++end_offs]<<available; available+=8;
}while(available<=OD_EC_WINDOW_SIZE-8);`.  The fuel argument is always
sufficient (`available` grows by 8 per iteration), so the fuel-0 branch is
dead code. -/
def ec_bits_refill_aux (buf : List Nat) (storage : Nat) :
    Nat → Nat → Int → Nat → Nat × Int × Nat
  | 0, e, a, w => (e, a, w)
  | fuel + 1, end_offs, available, window =>
    if storage ≤ end_offs then (end_offs, OD_EC_LOTS_OF_BITS, window)
    else
      let w := (window ||| byteAt buf (storage - (end_offs + 1)) <<<
        available.toNat) % 2^32
      let e := end_offs + 1
      let a := available + 8
      if a ≤ (OD_EC_WINDOW_SIZE : Int) - 8 then
        ec_bits_refill_aux buf storage fuel e a w
      else (e, a, w)

/-- Entry point of the raw-bit refill loop, with exactly enough fuel. -/
def ec_bits_refill (buf : List Nat) (storage : Nat) (end_offs : Nat)
    (available : Int) (window : Nat) : Nat × Int × Nat :=
  ec_bits_refill_aux buf storage ((25 - available).toNat / 8 + 1)
    end_offs available window

/-- Function `od_ec_dec_bits`: extract `_bits` raw bits (0..25) read backward from the
tail of the buffer, using the independent `end_window`/`nend_bits`
accumulator; always advances `nbits_total` by `_bits`. -/
def od_ec_dec_bits (t : od_ec_dec) (_bits : Nat) : od_ec_dec × Nat :=
  let oaw : Nat × Int × Nat :=
    if uint32ofInt t.nend_bits < _bits then
      ec_bits_refill t.buf t.storage t.end_offs t.nend_bits t.end_window
    else (t.end_offs, t.nend_bits, t.end_window)
  let window := oaw.2.2
  let ret := window &&& ((1 <<< _bits) - 1)
  ({ t with
      end_offs := oaw.1
      end_window := window >>> _bits
      nend_bits := oaw.2.1 - (_bits : Int)
      nbits_total := t.nbits_total + (_bits : Int) }, ret)

/-- The large-`_ft` path of `od_ec_dec_uint` up to and including the
combination `t=(fs>>15-OD_EC_UINT_BITS)<<ftb|od_ec_dec_bits(_this,ftb)`:
returns the decoder state after the three sub-calls together with the
combined value, before the range check. -/
def od_ec_dec_uint_large (t : od_ec_dec) (_ft : Nat) : od_ec_dec × Nat :=
  let ftm := _ft - 1
  let ftb := OD_ILOG_NZ ftm - OD_EC_UINT_BITS
  let ft := (((ftm >>> ftb) + 1) <<< (15 - OD_EC_UINT_BITS)) % 2^32
  let p1 := od_ec_decode_normalized t ft
  let fs := p1.2 &&& (2^32 - (1 <<< (15 - OD_EC_UINT_BITS)))
  let t2 := od_ec_dec_update p1.1 fs
    ((fs + (1 <<< (15 - OD_EC_UINT_BITS))) % 2^32) ft
  let p3 := od_ec_dec_bits t2 ftb
  let tv := (((fs >>> (15 - OD_EC_UINT_BITS)) <<< ftb) % 2^32) ||| p3.2
  (p3.1, tv)

/-- Function `od_ec_dec_uint`: decode an integer uniform over `[0,_ft)`.  For
`_ft > 1<<OD_EC_UINT_BITS` the value is split into a range-coded high part and
raw low bits; if the combined value exceeds `_ft-1` the sticky `error` flag is
set and `_ft-1` is returned.  Otherwise a single decode/update pair is used. -/
def od_ec_dec_uint (t : od_ec_dec) (_ft : Nat) : od_ec_dec × Nat :=
  if (1 <<< OD_EC_UINT_BITS) % 2^32 < _ft then
    let p := od_ec_dec_uint_large t _ft
    if p.2 ≤ _ft - 1 then p
    else ({ p.1 with error := 1 }, _ft - 1)
  else
    let p1 := od_ec_decode t _ft
    let t2 := od_ec_dec_update p1.1 p1.2 (p1.2 + 1) _ft
    (t2, p1.2)

/-- A concrete decoder state used to instantiate the claims: the decoder
freshly initialized over the empty buffer. -/
def ecT : od_ec_dec := od_ec_dec_init [] 0

/-- A concrete decoder state whose sticky fault flag is already set. -/
def ecT1 : od_ec_dec := { od_ec_dec_init [] 0 with error := 1 }

/-- With enough fuel, the bitlength recursion computes `Nat.size`. -/
theorem od_ilog_aux_eq_size : ∀ (fuel n : Nat), n ≤ fuel →
    od_ilog_aux fuel n = Nat.size n := by
  intro fuel
  induction fuel with
  | zero =>
    intro n h
    have hn : n = 0 := by omega
    subst hn
    rw [Nat.size_zero]
    rfl
  | succ f ih =>
    intro n h
    show (if n = 0 then 0 else od_ilog_aux f (n / 2) + 1) = Nat.size n
    split_ifs with h0
    · subst h0; rw [Nat.size_zero]
    · rw [ih (n / 2) (by omega)]
      have hs : Nat.size n = Nat.size (n / 2) + 1 := by
        conv_lhs => rw [← Nat.bit_decomp n]
        rw [Nat.size_bit (by rw [Nat.bit_decomp]; exact h0), Nat.div2_val]
      omega

/-- The macro `OD_ILOG_NZ` computes the bitlength `Nat.size`. -/
theorem OD_ILOG_NZ_eq_size (n : Nat) : OD_ILOG_NZ n = Nat.size n :=
  od_ilog_aux_eq_size n n (le_refl n)

/-- Shifting a nonzero 16-bit value left by `16 - bitlength` lands it in
`[0x8000, 0x10000)`; this is the arithmetic heart of normalization. -/
theorem size_shift16 (n : Nat) (h1 : 0 < n) (h2 : n < 2^16) :
    2^15 ≤ n <<< (16 - Nat.size n) ∧ n <<< (16 - Nat.size n) < 2^16 := by
  have hbpos : 1 ≤ Nat.size n := Nat.size_pos.2 h1
  have hble : Nat.size n ≤ 16 := Nat.size_le.2 h2
  have hlow : 2^(Nat.size n - 1) ≤ n := Nat.lt_size.1 (by omega)
  have hhigh : n < 2^(Nat.size n) := Nat.lt_size_self n
  have e1 : 2^(Nat.size n - 1) * 2^(16 - Nat.size n) = 2^15 := by
    rw [← pow_add]; congr 1; omega
  have e2 : 2^(Nat.size n) * 2^(16 - Nat.size n) = 2^16 := by
    rw [← pow_add]; congr 1; omega
  rw [Nat.shiftLeft_eq]
  constructor
  · rw [← e1]; exact Nat.mul_le_mul_right _ hlow
  · rw [← e2]; exact Nat.mul_lt_mul_of_lt_of_le hhigh (le_refl _) (by positivity)

/-- Unsigned subtraction of a strictly smaller small value stays in
`[1, a]`. -/
theorem sub32_bounds (a q0 : Nat) (h1 : q0 < a) (h2 : a ≤ 32768) :
    1 ≤ sub32 a q0 ∧ sub32 a q0 ≤ a := by
  unfold sub32; omega

/-- The conditional of the `OD_MAXI` macro computes the maximum. -/
theorem OD_MAXI_eq_max (a b : Int) : OD_MAXI a b = max a b := by
  unfold OD_MAXI
  rw [max_def]
  split_ifs <;> omega

/-- The value `OD_MAXI((int)a, (int)(bb - dd))` is below `F` whenever the
unwrapped candidate `bb - dd` is (the wrapped case is negative and loses
against the nonnegative `a`). -/
theorem maxi_toNat_lt (a bb dd F : Nat) (hbb : bb < 2^32) (hd : dd < 2^31)
    (hF : F ≤ 2^31) (ha : a < F) (h2 : dd ≤ bb → bb - dd < F) :
    (OD_MAXI (toInt32 a) (toInt32 (sub32 bb dd))).toNat < F := by
  have hta : toInt32 a = (a : Int) := by
    unfold toInt32; split_ifs with h <;> omega
  rcases le_or_lt dd bb with hc | hc
  · have h2' := h2 hc
    have hs : sub32 bb dd = bb - dd := by unfold sub32; omega
    have htb : toInt32 (sub32 bb dd) = ((bb - dd : Nat) : Int) := by
      unfold toInt32; rw [hs]; split_ifs with h <;> omega
    rw [OD_MAXI_eq_max, hta, htb]
    rcases max_cases ((a : Int)) (((bb - dd : Nat) : Int)) with ⟨hm, _⟩ | ⟨hm, _⟩ <;>
      rw [hm] <;> omega
  · have hs : sub32 bb dd = bb + (2^32 - dd) := by unfold sub32; omega
    have htb : toInt32 (sub32 bb dd) = ((bb + (2^32 - dd) : Nat) : Int) - 2^32 := by
      unfold toInt32; rw [hs]; split_ifs with h
      · omega
      · congr 2; omega
    rw [OD_MAXI_eq_max, hta, htb]
    rcases max_cases ((a : Int)) (((bb + (2^32 - dd) : Nat) : Int) - 2^32) with
      ⟨hm, _⟩ | ⟨hm, _⟩ <;> rw [hm] <;> omega

/-- The shifted-down form of `maxi_toNat_lt`, matching the
`OD_MAXI(...)>>s` pattern of the decode functions. -/
theorem maxiShift_lt (a bb dd ftv s : Nat) (hbb : bb < 2^32) (hd : dd < 2^31)
    (hF : ftv * 2^s ≤ 2^31) (ha : a < ftv * 2^s)
    (h2 : dd ≤ bb → bb - dd < ftv * 2^s) :
    (OD_MAXI (toInt32 a) (toInt32 (sub32 bb dd))).toNat >>> s < ftv := by
  rw [Nat.shiftRight_eq_div_pow]
  rw [Nat.div_lt_iff_lt_mul (Nat.pos_pow_of_pos _ (by norm_num))]
  exact maxi_toNat_lt a bb dd (ftv * 2^s) hbb hd hF ha h2

/-- The scale step of `od_ec_decode` and the explicit-total ICDF decoders
produces `ft << s` with `ft << s ≤ rng < 2*(ft << s)` for any valid total and
normalized range. -/
theorem scale_ft_spec (r ft : Nat) (h1 : 1 ≤ ft) (h2 : ft ≤ 32767)
    (hr1 : 2^15 ≤ r) (hr2 : r < 2^16) :
    ∃ s : Nat, od_ec_scale_ft r ft = (ft * 2^s, s) ∧
      ft * 2^s ≤ r ∧ r < 2 * (ft * 2^s) := by
  simp only [od_ec_scale_ft, OD_ILOG_NZ_eq_size]
  have hb15 : Nat.size (ft - 1) ≤ 15 := Nat.size_le.2 (by omega)
  have hf2 : ft ≤ 2^(Nat.size (ft - 1)) := by
    have := Nat.lt_size_self (ft - 1); omega
  have hpe : 2^(Nat.size (ft - 1)) * 2^(15 - Nat.size (ft - 1)) = 2^15 := by
    rw [← pow_add]; congr 1; omega
  have hup : ft * 2^(15 - Nat.size (ft - 1)) ≤ 2^15 := by
    calc ft * 2^(15 - Nat.size (ft - 1))
        ≤ 2^(Nat.size (ft - 1)) * 2^(15 - Nat.size (ft - 1)) :=
          Nat.mul_le_mul_right _ hf2
      _ = 2^15 := hpe
  have hlo : 2^14 < ft * 2^(15 - Nat.size (ft - 1)) := by
    rcases Nat.lt_or_ge ft 2 with hf1 | hf1
    · have hfe : ft = 1 := by omega
      subst hfe
      norm_num
    · have hbpos : 1 ≤ Nat.size (ft - 1) := Nat.size_pos.2 (by omega)
      have hlow : 2^(Nat.size (ft - 1) - 1) ≤ ft - 1 :=
        Nat.lt_size.1 (by omega)
      have hpe2 : 2^(Nat.size (ft - 1) - 1) * 2^(15 - Nat.size (ft - 1)) =
          2^14 := by rw [← pow_add]; congr 1; omega
      calc 2^14 = 2^(Nat.size (ft - 1) - 1) * 2^(15 - Nat.size (ft - 1)) :=
            hpe2.symm
        _ < ft * 2^(15 - Nat.size (ft - 1)) := by
            have := Nat.pos_pow_of_pos (15 - Nat.size (ft - 1))
              (show 0 < 2 by norm_num)
            exact Nat.mul_lt_mul_of_lt_of_le (by omega) (le_refl _) this
  have hfs : ft * 2^(15 - Nat.size (ft - 1) + 1) =
      2 * (ft * 2^(15 - Nat.size (ft - 1))) := by rw [pow_succ]; ring
  simp only [Nat.shiftLeft_eq, pow_one]
  rw [Nat.mod_eq_of_lt (show ft * 2^(15 - Nat.size (ft - 1)) < 2^32 by omega)]
  rw [Nat.mod_eq_of_lt
    (show ft * 2^(15 - Nat.size (ft - 1)) * 2 < 2^32 by omega)]
  split_ifs with hc
  · refine ⟨15 - Nat.size (ft - 1) + 1, ?_, by omega, by omega⟩
    rw [Prod.mk.injEq]
    exact ⟨by rw [hfs]; ring, rfl⟩
  · exact ⟨15 - Nat.size (ft - 1), rfl, by omega, by omega⟩

/-- Bitlength of `2^ftb - 1` is `ftb`. -/
theorem size_shiftLeft_pred (ftb : Nat) (h1 : 1 ≤ ftb) :
    Nat.size ((1 <<< ftb) - 1) = ftb := by
  rw [Nat.shiftLeft_eq, one_mul]
  have h2 : (2:Nat)^(ftb - 1) * 2 = 2^ftb := by
    rw [← pow_succ]; congr 1; omega
  have h3 : 0 < (2:Nat)^(ftb - 1) := Nat.pos_pow_of_pos _ (by norm_num)
  refine le_antisymm (Nat.size_le.2 (by omega)) ?_
  have h4 : ftb - 1 < Nat.size (2^ftb - 1) := Nat.lt_size.2 (by omega)
  omega

/-- Normalization never touches the fault flag. -/
theorem normalize_error (t : od_ec_dec) (a b : Nat) (r : Int) :
    (od_ec_dec_normalize t a b r).1.error = t.error := rfl

/-- The symbol-decode functions never touch the fault flag. -/
theorem decode_normalized_error (t : od_ec_dec) (ft : Nat) :
    (od_ec_decode_normalized t ft).1.error = t.error := rfl

/-- The generic-total decode never touches the fault flag. -/
theorem decode_error (t : od_ec_dec) (ft : Nat) :
    (od_ec_decode t ft).1.error = t.error := rfl

/-- The binary normalized decode never touches the fault flag. -/
theorem decode_bin_normalized_error (t : od_ec_dec) :
    (od_ec_decode_bin_normalized t).1.error = t.error := rfl

/-- The power-of-two decode never touches the fault flag. -/
theorem decode_bin_error (t : od_ec_dec) (ftb : Nat) :
    (od_ec_decode_bin t ftb).1.error = t.error := rfl

/-- The update step never touches the fault flag. -/
theorem update_error (t : od_ec_dec) (fl fh ft : Nat) :
    (od_ec_dec_update t fl fh ft).error = t.error := rfl

/-- The binary-probability bit decode never touches the fault flag. -/
theorem bit_logp_error (t : od_ec_dec) (logp : Nat) :
    (od_ec_dec_bit_logp t logp).1.error = t.error := rfl

/-- The explicit-total 8-bit ICDF decode never touches the fault flag. -/
theorem icdf_ft_error (t : od_ec_dec) (icdf : List Nat) (ft : Nat) :
    (od_ec_dec_icdf_ft t icdf ft).1.error = t.error := rfl

/-- The explicit-total 16-bit ICDF decode never touches the fault flag. -/
theorem icdf16_ft_error (t : od_ec_dec) (icdf : List Nat) (ft : Nat) :
    (od_ec_dec_icdf16_ft t icdf ft).1.error = t.error := rfl

/-- The implicit-total 8-bit ICDF decode never touches the fault flag. -/
theorem icdf_error (t : od_ec_dec) (icdf : List Nat) (ftb : Nat) :
    (od_ec_dec_icdf t icdf ftb).1.error = t.error := rfl

/-- The implicit-total 16-bit ICDF decode never touches the fault flag. -/
theorem icdf16_error (t : od_ec_dec) (icdf : List Nat) (ftb : Nat) :
    (od_ec_dec_icdf16 t icdf ftb).1.error = t.error := rfl

/-- Raw bit extraction never touches the fault flag. -/
theorem dec_bits_error (t : od_ec_dec) (bits : Nat) :
    (od_ec_dec_bits t bits).1.error = t.error := rfl

/-- The three sub-calls of the large-total uniform decode preserve the fault
flag. -/
theorem uint_large_error (t : od_ec_dec) (ft : Nat) :
    (od_ec_dec_uint_large t ft).1.error = t.error := by
  simp only [od_ec_dec_uint_large, dec_bits_error, update_error,
    decode_normalized_error]

/-- The ICDF table scan on a table with terminal entry 0, driven by a target
frequency `q ≥ 1`, stops strictly inside the table, at the first index whose
entry is below `q`. -/
theorem icdf_walk_spec (q : Nat) (hq : 1 ≤ q) :
    ∀ (l : List Nat) (fl : Nat), l ≠ [] → l.getLast? = some 0 →
      (od_ec_icdf_walk q fl l).1 < l.length ∧
      l.getD (od_ec_icdf_walk q fl l).1 0 = (od_ec_icdf_walk q fl l).2.2 ∧
      (od_ec_icdf_walk q fl l).2.2 < q ∧
      ∀ j < (od_ec_icdf_walk q fl l).1, q ≤ l.getD j 0 := by
  intro l
  induction l with
  | nil => intro fl hne _; exact absurd rfl hne
  | cons x rest ih =>
    intro fl _ hlast
    unfold od_ec_icdf_walk
    split_ifs with hx
    · have hrest : rest ≠ [] := by
        intro he
        subst he
        simp only [List.getLast?_singleton, Option.some.injEq] at hlast
        omega
      have hlast' : rest.getLast? = some 0 := by
        match rest, hrest with
        | y :: ys, _ => rwa [List.getLast?_cons_cons] at hlast
      obtain ⟨ih1, ih2, ih3, ih4⟩ := ih x hrest hlast'
      refine ⟨by simpa using Nat.succ_lt_succ ih1, by simpa using ih2,
        ih3, ?_⟩
      intro j hj
      match j with
      | 0 => simpa using hx
      | j' + 1 =>
        simp only [List.getD_cons_succ]
        exact ih4 j' (by simpa using hj)
    · refine ⟨by simp, by simp, by show x < q; omega, ?_⟩
      intro j hj
      simp at hj

/-- The target frequency `q` computed by the explicit-total ICDF decoders
satisfies `1 ≤ q ≤ ft` in any state meeting the decoder invariants. -/
theorem icdf_ft_q_bounds (t : od_ec_dec) (ft : Nat) (hr1 : 0x8000 ≤ t.rng)
    (hr2 : t.rng < 0x10000) (hv : t.val < t.rng * 0x10000)
    (hf1 : 1 ≤ ft) (hf2 : ft ≤ 32767) :
    1 ≤ (od_ec_icdf_ft_sdq t ft).2.2 ∧ (od_ec_icdf_ft_sdq t ft).2.2 ≤ ft := by
  obtain ⟨s, hsc, hle, hlt⟩ := scale_ft_spec t.rng ft hf1 hf2 (by omega) (by omega)
  simp only [od_ec_icdf_ft_sdq, hsc]
  have hD : (t.val >>> (OD_EC_WINDOW_SIZE - 16)) % 2^32 = t.val / 2^16 := by
    show (t.val >>> 16) % 2^32 = t.val / 2^16
    rw [Nat.shiftRight_eq_div_pow]
    omega
  have hA : (t.val >>> (OD_EC_WINDOW_SIZE - 15)) % 2^32 = t.val / 2^16 / 2 := by
    show (t.val >>> 17) % 2^32 = t.val / 2^16 / 2
    rw [Nat.shiftRight_eq_div_pow]
    omega
  rw [hD, hA]
  have hDlt : t.val / 2^16 < t.rng := by omega
  have hsub : sub32 t.rng (ft * 2^s) = t.rng - ft * 2^s := by
    unfold sub32; omega
  rw [hsub]
  exact sub32_bounds ft _ (maxiShift_lt (t.val / 2^16 / 2) (t.val / 2^16)
    (t.rng - ft * 2^s) ft s (by omega) (by omega) (by omega) (by omega)
    (by omega)) (by omega)

/-- The target frequency `q` computed by the implicit-total ICDF decoders
satisfies `1 ≤ q ≤ 2^ftb` in any state meeting the decoder invariants. -/
theorem icdf_q_bounds (t : od_ec_dec) (ftb : Nat) (hr1 : 0x8000 ≤ t.rng)
    (hr2 : t.rng < 0x10000) (hv : t.val < t.rng * 0x10000)
    (hftb : ftb ≤ 15) :
    1 ≤ (od_ec_icdf_sdq t ftb).2.2 ∧ (od_ec_icdf_sdq t ftb).2.2 ≤ 2^ftb := by
  have hpe : (2:Nat)^ftb * 2^(15 - ftb) = 32768 := by
    rw [← pow_add]
    have he : ftb + (15 - ftb) = 15 := by omega
    rw [he]
    norm_num
  have hp15 : (2:Nat)^ftb ≤ 2^15 := Nat.pow_le_pow_right (by norm_num) hftb
  have hone : (1 <<< ftb) % 2^32 = 2^ftb := by
    rw [Nat.shiftLeft_eq, one_mul, Nat.mod_eq_of_lt (by omega)]
  simp only [od_ec_icdf_sdq, hone]
  have hD : (t.val >>> (OD_EC_WINDOW_SIZE - 16)) % 2^32 = t.val / 2^16 := by
    show (t.val >>> 16) % 2^32 = t.val / 2^16
    rw [Nat.shiftRight_eq_div_pow]
    omega
  have hA : (t.val >>> (OD_EC_WINDOW_SIZE - 15)) % 2^32 = t.val / 2^16 / 2 := by
    show (t.val >>> 17) % 2^32 = t.val / 2^16 / 2
    rw [Nat.shiftRight_eq_div_pow]
    omega
  rw [hD, hA]
  have hDlt : t.val / 2^16 < t.rng := by omega
  have hsub : sub32 t.rng 32768 = t.rng - 32768 := by
    unfold sub32; omega
  rw [hsub]
  exact sub32_bounds (2^ftb) _ (maxiShift_lt (t.val / 2^16 / 2) (t.val / 2^16)
    (t.rng - 32768) (2^ftb) (15 - ftb) (by omega) (by omega) (by omega)
    (by omega) (by omega)) (by omega)

/-- The symbol returned by `od_ec_dec_icdf_ft` is the table-scan count at the
target frequency computed by `od_ec_icdf_ft_sdq` (definitional reading of the
source). -/
theorem icdf_ft_ret (t : od_ec_dec) (icdf : List Nat) (ft : Nat) :
    (od_ec_dec_icdf_ft t icdf ft).2 =
      ((od_ec_icdf_walk (od_ec_icdf_ft_sdq t ft).2.2 ft icdf).1 : Int) := rfl

/-- The symbol returned by `od_ec_dec_icdf` is the table-scan count at the
target frequency computed by `od_ec_icdf_sdq` (definitional reading of the
source). -/
theorem icdf_ret (t : od_ec_dec) (icdf : List Nat) (ftb : Nat) :
    (od_ec_dec_icdf t icdf ftb).2 =
      ((od_ec_icdf_walk (od_ec_icdf_sdq t ftb).2.2 ((1 <<< ftb) % 2^32)
        icdf).1 : Int) := rfl

/-- C1: `od_ec_dec_init` establishes `rng = 0x8000`, and every
`od_ec_dec_normalize` call (the sole place normalization happens, through
which every decode/update routes) leaves the range field in
`[0x8000, 0x10000)`, for any incoming nonzero 16-bit range. -/
theorem claim_C1 :
    (∀ buf storage, (od_ec_dec_init buf storage).rng = 0x8000) ∧
    ∀ t dif rng ret, 0 < rng → rng < 0x10000 →
      0x8000 ≤ (od_ec_dec_normalize t dif rng ret).1.rng ∧
      (od_ec_dec_normalize t dif rng ret).1.rng < 0x10000 := by
  constructor
  · intro buf storage; rfl
  · intro t dif rng ret h1 h2
    have h := size_shift16 rng h1 (by omega)
    show 0x8000 ≤ (rng <<< (16 - OD_ILOG_NZ rng)) % 2^32 ∧
      (rng <<< (16 - OD_ILOG_NZ rng)) % 2^32 < 0x10000
    rw [OD_ILOG_NZ_eq_size]
    omega

/-- Witness for C1 at a concrete normalization call with `rng = 300`. -/
theorem claim_C1_witness :
    0x8000 ≤ (od_ec_dec_normalize ecT 0 300 5).1.rng ∧
    (od_ec_dec_normalize ecT 0 300 5).1.rng < 0x10000 :=
  claim_C1.2 ecT 0 300 5 (by decide) (by decide)

/-- C7: `od_ec_dec_normalize` always returns its passthrough argument `_ret`
unchanged and always adds exactly `d = 16 - bitlength(new range)` to
`nbits_total`, for every decoder state and every candidate window/range pair
with a nonzero (16-bit) range. -/
theorem claim_C7 :
    ∀ t dif rng ret, 0 < rng → rng < 0x10000 →
      (od_ec_dec_normalize t dif rng ret).2 = ret ∧
      (od_ec_dec_normalize t dif rng ret).1.nbits_total =
        t.nbits_total + (16 - (Nat.size rng : Int)) := by
  intro t dif rng ret h1 h2
  have hble : Nat.size rng ≤ 16 := Nat.size_le.2 (by omega)
  refine ⟨rfl, ?_⟩
  show t.nbits_total + ((16 - OD_ILOG_NZ rng : Nat) : Int) = _
  rw [OD_ILOG_NZ_eq_size]
  omega

/-- Witness for C7 at a concrete normalization call with `rng = 300`
(bitlength 9, so `d = 7`). -/
theorem claim_C7_witness :
    (od_ec_dec_normalize ecT 0 300 5).2 = 5 ∧
    (od_ec_dec_normalize ecT 0 300 5).1.nbits_total =
      ecT.nbits_total + (16 - (Nat.size 300 : Int)) :=
  claim_C7 ecT 0 300 5 (by decide) (by decide)

/-- C10: `od_ec_dec_bits` with a zero bit count is a complete no-op on every
decoder state: it returns 0 and leaves every field (including `end_window`,
`nend_bits`, `end_offs` and `nbits_total`) unchanged, performing no refill. -/
theorem claim_C10 : ∀ t : od_ec_dec, od_ec_dec_bits t 0 = (t, 0) := by
  intro t
  unfold od_ec_dec_bits
  have hg : ¬ uint32ofInt t.nend_bits < 0 := Nat.not_lt_zero _
  rw [if_neg hg]
  simp only [Nat.shiftRight_zero, Nat.shiftLeft_zero, Nat.sub_self,
    Nat.cast_zero, sub_zero, add_zero, Nat.and_zero]

/-- C9: over an empty buffer (`storage = 0`), `od_ec_dec_bits 8` returns the
all-zero padding, does not set the fault flag, and still advances
`nbits_total` by exactly 8. -/
theorem claim_C9 :
    (od_ec_dec_bits (od_ec_dec_init [] 0) 8).2 = 0 ∧
    (od_ec_dec_bits (od_ec_dec_init [] 0) 8).1.error = 0 ∧
    (od_ec_dec_bits (od_ec_dec_init [] 0) 8).1.nbits_total =
      (od_ec_dec_init [] 0).nbits_total + 8 := by
  refine ⟨rfl, rfl, ?_⟩
  decide

/-- C5: the fault flag is sticky: every exposed decode operation maps a state
with `error = 1` to a state with `error = 1`. -/
theorem claim_C5 :
    ∀ t : od_ec_dec, t.error = 1 →
    ∀ (ft ftb logp fl fh bits : Nat) (icdf : List Nat),
      (od_ec_decode_normalized t ft).1.error = 1 ∧
      (od_ec_decode t ft).1.error = 1 ∧
      (od_ec_decode_bin_normalized t).1.error = 1 ∧
      (od_ec_decode_bin t ftb).1.error = 1 ∧
      (od_ec_dec_update t fl fh ft).error = 1 ∧
      (od_ec_dec_bit_logp t logp).1.error = 1 ∧
      (od_ec_dec_icdf_ft t icdf ft).1.error = 1 ∧
      (od_ec_dec_icdf16_ft t icdf ft).1.error = 1 ∧
      (od_ec_dec_icdf t icdf ftb).1.error = 1 ∧
      (od_ec_dec_icdf16 t icdf ftb).1.error = 1 ∧
      (od_ec_dec_uint t ft).1.error = 1 ∧
      (od_ec_dec_bits t bits).1.error = 1 := by
  intro t ht ft ftb logp fl fh bits icdf
  refine ⟨by rw [decode_normalized_error, ht], by rw [decode_error, ht],
    by rw [decode_bin_normalized_error, ht], by rw [decode_bin_error, ht],
    by rw [update_error, ht], by rw [bit_logp_error, ht],
    by rw [icdf_ft_error, ht], by rw [icdf16_ft_error, ht],
    by rw [icdf_error, ht], by rw [icdf16_error, ht], ?_,
    by rw [dec_bits_error, ht]⟩
  simp only [od_ec_dec_uint]
  split_ifs with h1 h2
  · rw [uint_large_error]; exact ht
  · rfl
  · dsimp only
    rw [update_error, decode_error]; exact ht

/-- Witness for C5: a faulted state stays faulted through each operation at
concrete arguments. -/
theorem claim_C5_witness :
    (od_ec_decode_normalized ecT1 16384).1.error = 1 ∧
    (od_ec_decode ecT1 16384).1.error = 1 ∧
    (od_ec_decode_bin_normalized ecT1).1.error = 1 ∧
    (od_ec_decode_bin ecT1 3).1.error = 1 ∧
    (od_ec_dec_update ecT1 0 1 16384).error = 1 ∧
    (od_ec_dec_bit_logp ecT1 2).1.error = 1 ∧
    (od_ec_dec_icdf_ft ecT1 [0] 16384).1.error = 1 ∧
    (od_ec_dec_icdf16_ft ecT1 [0] 16384).1.error = 1 ∧
    (od_ec_dec_icdf ecT1 [0] 3).1.error = 1 ∧
    (od_ec_dec_icdf16 ecT1 [0] 3).1.error = 1 ∧
    (od_ec_dec_uint ecT1 16384).1.error = 1 ∧
    (od_ec_dec_bits ecT1 4).1.error = 1 :=
  claim_C5 ecT1 rfl 16384 3 2 0 1 4 [0]

/-- C3: in any state satisfying the decoder invariants
(`0x8000 ≤ rng < 0x10000` and window consistency `val < rng << 16`), the
value returned by `od_ec_decode_normalized ft` with `16384 ≤ ft ≤ 32767`
lies in `[0, ft)`. -/
theorem claim_C3 (t : od_ec_dec) (ft : Nat) (hr1 : 0x8000 ≤ t.rng)
    (hr2 : t.rng < 0x10000) (hv : t.val < t.rng * 0x10000)
    (hf1 : 16384 ≤ ft) (hf2 : ft ≤ 32767) :
    (od_ec_decode_normalized t ft).2 < ft := by
  have hD : (t.val >>> (OD_EC_WINDOW_SIZE - 16)) % 2^32 = t.val / 2^16 := by
    show (t.val >>> 16) % 2^32 = t.val / 2^16
    rw [Nat.shiftRight_eq_div_pow]
    omega
  simp only [od_ec_decode_normalized]
  rw [hD]
  have hDlt : t.val / 2^16 < t.rng := by omega
  have hshr : (t.val / 2^16) >>> 1 = t.val / 2^16 / 2 := by
    rw [Nat.shiftRight_eq_div_pow]
  have hcc : (ft <<< 1) % 2^32 = 2 * ft := by rw [Nat.shiftLeft_eq]; omega
  rw [hcc]
  split_ifs with hc
  · rw [hcc]
    have hsub : sub32 t.rng (2 * ft) = t.rng - 2 * ft := by
      unfold sub32; omega
    rw [hsub]
    exact maxiShift_lt _ _ _ ft 1 (by omega) (by omega) (by omega)
      (by omega) (by omega)
  · have h0 : (ft <<< 0) % 2^32 = ft := by rw [Nat.shiftLeft_zero]; omega
    rw [h0]
    have hsub : sub32 t.rng ft = t.rng - ft := by
      unfold sub32; omega
    rw [hsub]
    exact maxiShift_lt _ _ _ ft 0 (by omega) (by omega) (by omega)
      (by omega) (by omega)

/-- Witness for C3 in the freshly initialized state with `ft = 16384`. -/
theorem claim_C3_witness : (od_ec_decode_normalized ecT 16384).2 < 16384 :=
  claim_C3 ecT 16384 (by decide) (by decide) (by decide) (by decide)
    (by decide)

/-- C8: in any state satisfying the decoder invariants, `od_ec_dec_uint 1`
returns 0, for every input buffer. -/
theorem claim_C8 (t : od_ec_dec) (hr1 : 0x8000 ≤ t.rng)
    (hr2 : t.rng < 0x10000) (hv : t.val < t.rng * 0x10000) :
    (od_ec_dec_uint t 1).2 = 0 := by
  simp only [od_ec_dec_uint]
  rw [if_neg (by decide)]
  dsimp only
  simp only [od_ec_decode]
  have hscale : od_ec_scale_ft t.rng 1 = (32768, 15) := by
    simp only [od_ec_scale_ft, OD_ILOG_NZ_eq_size, Nat.sub_self,
      Nat.size_zero, Nat.sub_zero]
    rw [if_neg (by omega)]
    rfl
  rw [hscale]
  dsimp only
  have hD : (t.val >>> (OD_EC_WINDOW_SIZE - 16)) % 2^32 = t.val / 2^16 := by
    show (t.val >>> 16) % 2^32 = t.val / 2^16
    rw [Nat.shiftRight_eq_div_pow]
    omega
  rw [hD]
  have hDlt : t.val / 2^16 < t.rng := by omega
  have hshr : (t.val / 2^16) >>> 1 = t.val / 2^16 / 2 := by
    rw [Nat.shiftRight_eq_div_pow]
  have hsub : sub32 t.rng 32768 = t.rng - 32768 := by unfold sub32; omega
  rw [hsub]
  have h := maxiShift_lt ((t.val / 2^16) >>> 1) (t.val / 2^16) (t.rng - 32768)
    1 15 (by omega) (by omega) (by omega) (by omega) (by omega)
  exact Nat.lt_one_iff.mp h

/-- Witness for C8 in the freshly initialized state. -/
theorem claim_C8_witness : (od_ec_dec_uint ecT 1).2 = 0 :=
  claim_C8 ecT (by decide) (by decide) (by decide)

/-- C6: for `1 ≤ ftb` with `1 << ftb` a legal `od_ec_decode` total
(`≤ 32767`), `od_ec_decode_bin ftb` returns the same value and produces the
same decoder state (including `ext`) as `od_ec_decode (1 << ftb)`, in any
state with a 16-bit range. -/
theorem claim_C6 (t : od_ec_dec) (ftb : Nat) (h1 : 1 ≤ ftb)
    (h2 : (1 <<< ftb) ≤ 32767) (hr : t.rng < 0x10000) :
    od_ec_decode_bin t ftb = od_ec_decode t (1 <<< ftb) := by
  have hftb : ftb ≤ 14 := by
    by_contra hx
    rw [Nat.shiftLeft_eq, one_mul] at h2
    have h15 : (2:Nat)^15 ≤ 2^ftb := Nat.pow_le_pow_right (by norm_num) (by omega)
    omega
  have hscale : od_ec_scale_ft t.rng (1 <<< ftb) = (32768, 15 - ftb) := by
    have hft0 : ((1 <<< ftb) <<< (15 - ftb)) % 2^32 = 32768 := by
      rw [Nat.shiftLeft_eq, Nat.shiftLeft_eq, one_mul, ← pow_add]
      have he : ftb + (15 - ftb) = 15 := by omega
      rw [he]
      norm_num
    simp only [od_ec_scale_ft, OD_ILOG_NZ_eq_size, size_shiftLeft_pred ftb h1,
      hft0]
    rw [if_neg (by omega)]
  simp only [od_ec_decode_bin, od_ec_decode, hscale]

/-- Witness for C6 in the freshly initialized state with `ftb = 3`. -/
theorem claim_C6_witness : od_ec_decode_bin ecT 3 = od_ec_decode ecT (1 <<< 3) :=
  claim_C6 ecT 3 (by decide) (by decide) (by decide)

/-- C2: for any well-formed inverse-CDF table (non-increasing entries,
terminal 0, nonempty) and any total `1 ≤ ft ≤ 32767` (resp. any
`ftb ≤ 15`), in a state satisfying the decoder invariants,
`od_ec_dec_icdf_ft` (resp. `od_ec_dec_icdf`) returns a symbol `s` with
`0 ≤ s < length(table)`, and the scan stops exactly at the first index whose
entry is below the computed target frequency `q`, so no access past the last
entry occurs. -/
theorem claim_C2 : ∀ (t : od_ec_dec) (icdf : List Nat) (ft ftb : Nat),
    0x8000 ≤ t.rng → t.rng < 0x10000 → t.val < t.rng * 0x10000 →
    icdf ≠ [] → icdf.getLast? = some 0 →
    List.Chain' (fun a b => b ≤ a) icdf →
    (1 ≤ ft → ft ≤ 32767 →
      0 ≤ (od_ec_dec_icdf_ft t icdf ft).2 ∧
      (od_ec_dec_icdf_ft t icdf ft).2.toNat < icdf.length ∧
      icdf.getD (od_ec_dec_icdf_ft t icdf ft).2.toNat 0 <
        (od_ec_icdf_ft_sdq t ft).2.2 ∧
      ∀ j < (od_ec_dec_icdf_ft t icdf ft).2.toNat,
        (od_ec_icdf_ft_sdq t ft).2.2 ≤ icdf.getD j 0) ∧
    (ftb ≤ 15 →
      0 ≤ (od_ec_dec_icdf t icdf ftb).2 ∧
      (od_ec_dec_icdf t icdf ftb).2.toNat < icdf.length ∧
      icdf.getD (od_ec_dec_icdf t icdf ftb).2.toNat 0 <
        (od_ec_icdf_sdq t ftb).2.2 ∧
      ∀ j < (od_ec_dec_icdf t icdf ftb).2.toNat,
        (od_ec_icdf_sdq t ftb).2.2 ≤ icdf.getD j 0) := by
  intro t icdf ft ftb hr1 hr2 hv hne hlast _hmono
  constructor
  · intro hf1 hf2
    obtain ⟨hq1, _hq2⟩ := icdf_ft_q_bounds t ft hr1 hr2 hv hf1 hf2
    obtain ⟨w1, w2, w3, w4⟩ :=
      icdf_walk_spec _ hq1 icdf ft hne hlast
    rw [icdf_ft_ret]
    simp only [Int.toNat_natCast]
    exact ⟨Int.natCast_nonneg _, w1, by rw [w2]; exact w3, w4⟩
  · intro hftb
    obtain ⟨hq1, _hq2⟩ := icdf_q_bounds t ftb hr1 hr2 hv hftb
    obtain ⟨w1, w2, w3, w4⟩ :=
      icdf_walk_spec _ hq1 icdf ((1 <<< ftb) % 2^32) hne hlast
    rw [icdf_ret]
    simp only [Int.toNat_natCast]
    exact ⟨Int.natCast_nonneg _, w1, by rw [w2]; exact w3, w4⟩

/-- Witness for C2 on the one-entry table `[0]` with `ft = 1` and `ftb = 0`. -/
theorem claim_C2_witness :
    ((od_ec_dec_icdf_ft ecT [0] 1).2).toNat < ([0] : List Nat).length ∧
    ((od_ec_dec_icdf ecT [0] 0).2).toNat < ([0] : List Nat).length :=
  ⟨((claim_C2 ecT [0] 1 0 (by decide) (by decide) (by decide) (by decide)
      (by decide) (List.chain'_singleton 0)).1 (by decide) (by decide)).2.1,
   ((claim_C2 ecT [0] 1 0 (by decide) (by decide) (by decide) (by decide)
      (by decide) (List.chain'_singleton 0)).2 (by decide)).2.1⟩

/-- C4: in `od_ec_dec_uint` with `ft > 2^OD_EC_UINT_BITS`, when the value
combined from the range-coded high part and the raw low bits is at most
`ft - 1` it is returned with the fault flag untouched; when it exceeds
`ft - 1`, the sticky fault flag is set and `ft - 1` is returned. -/
theorem claim_C4 (t : od_ec_dec) (ft : Nat) (h : 256 < ft) :
    ((od_ec_dec_uint_large t ft).2 ≤ ft - 1 →
      od_ec_dec_uint t ft = od_ec_dec_uint_large t ft ∧
      (od_ec_dec_uint t ft).1.error = t.error) ∧
    (ft - 1 < (od_ec_dec_uint_large t ft).2 →
      (od_ec_dec_uint t ft).1.error = 1 ∧
      (od_ec_dec_uint t ft).2 = ft - 1) := by
  have hc256 : (1 <<< OD_EC_UINT_BITS) % 2^32 = 256 := by decide
  have hcut : (1 <<< OD_EC_UINT_BITS) % 2^32 < ft := by omega
  constructor
  · intro hin
    simp only [od_ec_dec_uint]
    rw [if_pos hcut, if_pos hin]
    exact ⟨rfl, uint_large_error t ft⟩
  · intro hout
    simp only [od_ec_dec_uint]
    rw [if_pos hcut, if_neg (by omega)]
    exact ⟨rfl, rfl⟩

/-- Witness for C4: over the empty buffer with `ft = 257` the combined value
is in range, so the result is the combined value and the fault flag is
untouched. -/
theorem claim_C4_witness :
    od_ec_dec_uint ecT 257 = od_ec_dec_uint_large ecT 257 ∧
    (od_ec_dec_uint ecT 257).1.error = ecT.error :=
  (claim_C4 ecT 257 (by decide)).1 (by decide)
